import Mathlib

/-!
# Shallow embedding of the HeavyKeeper top-K sketch (Go package `topk`)

The Go source keeps a `depth × width` matrix of `bucket{fingerprint, count}`
cells (`uint32` fields) in a flat slice indexed by `slot + i*width`, plus a
fixed-size binary min-heap of `FlowCount{Flow string, Count uint32}` keyed by
`Count`.  Modelling conventions:

* `uint32` values live in `Nat`, with an explicit `% 2^32` exactly where the
  Go code can wrap (`count += incr`, and `count--` on a zero cell);
* the seeded 32-bit xxhash is an external collaborator and is passed in as an
  opaque parameter `hash : String → Nat → Nat` (its result is reduced
  `% 2^32` to stay in `uint32` range);
* `rand.Float64()` is modelled as a stream `rand : Nat → ℚ` of draws read at
  an explicit cursor that every draw advances, and the `float64` decay and
  percentage parameters as exact rationals (the spec states these formulas
  over exact reals);
* Go code that can panic (slice indexing, `minHeap.Min` on an empty slice)
  returns `Option`; all other operations are total.
-/

namespace Topk

/-- `2^32`, the modulus of Go `uint32` arithmetic. -/
def U32MOD : Nat := 4294967296

/-- Go `type bucket struct { fingerprint uint32; count uint32 }`. -/
structure Bucket where
  fingerprint : Nat
  count : Nat
  deriving Repr, DecidableEq

/-- Go `type FlowCount struct { Flow string; Count uint32 }`. -/
structure FlowCount where
  Flow : String
  Count : Nat
  deriving Repr, DecidableEq

instance : Inhabited FlowCount := ⟨⟨"", 0⟩⟩

/-- Go `type HeavyKeeper struct` (flat-slice variant: `buckets []bucket` of
length `depth*width`, `heap minHeap` of length `k`). -/
structure HeavyKeeper where
  decay : ℚ
  depth : Nat
  width : Nat
  buckets : List Bucket
  heap : List FlowCount
  deriving Repr, DecidableEq

/-- The seeded 32-bit hash `hash(bytes, seed) -> uint32`, treated as opaque. -/
abbrev HashFn := String → Nat → Nat

/-- The stream of `rand.Float64()` draws, read at an explicit cursor. -/
abbrev RandFn := Nat → ℚ

/-- Go `fingerprint(flow) = xxhash.ChecksumString32S(flow, math.MaxUint32)`. -/
def fingerprint (hash : HashFn) (flow : String) : Nat :=
  hash flow 4294967295 % U32MOD

/-- Go `slot(flow, row, width) = xxhash.ChecksumString32S(flow, row) % width`. -/
def slot (hash : HashFn) (flow : String) (row width : Nat) : Nat :=
  hash flow row % U32MOD % width

/-! ## The min-heap: Go `minHeap` with `container/heap`'s `Fix`

`minHeap.Less(i, j)` is `h[i].Count < h[j].Count`; `container/heap.Fix(h, i)`
first sifts down from `i` and, if `i` did not move, sifts up from `i`.  The
sift loops index only positions below `h.Len()`, so out-of-range reads cannot
occur; `List.getD` with the Go zero value stands for Go's `h[i]`. -/

/-- `h[i].Count`, the key the heap is ordered by. -/
def hkey (h : List FlowCount) (i : Nat) : Nat := (h.getD i default).Count

/-- `minHeap.Swap(i, j)`. -/
def hswap (h : List FlowCount) (i j : Nat) : List FlowCount :=
  (h.set i (h.getD j default)).set j (h.getD i default)

/-- The child of `i` that `container/heap.down` descends into: the right child
`2i+2` when it exists and has the smaller count, otherwise the left child
`2i+1`. -/
def downChild (h : List FlowCount) (i : Nat) : Nat :=
  if 2*i+2 < h.length ∧ hkey h (2*i+2) < hkey h (2*i+1) then 2*i+2 else 2*i+1

/-- Go `container/heap.down(h, i, h.Len())`; returns the array together with
the final index (Go returns `i > i0`, recovered here as `result.2 ≠ i`). -/
def heapDown (h : List FlowCount) (i : Nat) : List FlowCount × Nat :=
  if _h1 : 2*i+1 < h.length then
    if hkey h (downChild h i) < hkey h i then
      heapDown (hswap h i (downChild h i)) (downChild h i)
    else (h, i)
  else (h, i)
termination_by h.length - i
decreasing_by
  simp only [hswap, List.length_set]
  have hji : i < downChild h i := by unfold downChild; split <;> omega
  have hjl : downChild h i < h.length := by unfold downChild; split <;> omega
  omega

/-- Go `container/heap.up(h, j)`. -/
def heapUp (h : List FlowCount) (j : Nat) : List FlowCount :=
  if (j-1)/2 = j ∨ ¬ hkey h j < hkey h ((j-1)/2) then h
  else heapUp (hswap h ((j-1)/2) j) ((j-1)/2)
termination_by j
decreasing_by
  have := Nat.div_le_self (j-1) 2
  omega

/-- Go `container/heap.Fix(h, i)`: sift down from `i`, and sift up from `i`
when the element did not move down. -/
def heapFix (h : List FlowCount) (i : Nat) : List FlowCount :=
  if (heapDown h i).2 ≠ i then (heapDown h i).1 else heapUp h i

/-- Go `minHeap.Find(flow)`: index of the first entry with this flow, `-1`
(here `none`) when absent. -/
def heapFind : List FlowCount → String → Option Nat
  | [], _ => none
  | e :: t, flow =>
    if e.Flow = flow then some 0 else (heapFind t flow).map (fun i => i + 1)

/-! ## The counter matrix update of `HeavyKeeper.Sample` -/

/-- The collision branch of `Sample`:
`for localIncr := incr; localIncr > 0; localIncr--` draws once per unit and,
when the draw beats `decay^count`, decrements the occupant (`uint32`
wrap-around modelled exactly); a count that reaches zero re-occupies the cell
with `fp` and count `localIncr` and stops the loop.  Returns the cell, the
contribution to `maxCount` (`0` when the occupant survives) and the advanced
random cursor. -/
def decayLoop (decay : ℚ) (rand : RandFn) (fp : Nat) :
    Nat → Bucket → Nat → Bucket × Nat × Nat
  | 0, b, ri => (b, 0, ri)
  | localIncr+1, b, ri =>
    if rand ri < decay ^ b.count then
      if (b.count + (U32MOD - 1)) % U32MOD = 0 then
        (⟨fp, localIncr+1⟩, localIncr+1, ri+1)
      else
        decayLoop decay rand fp localIncr
          ⟨b.fingerprint, (b.count + (U32MOD - 1)) % U32MOD⟩ (ri+1)
    else decayLoop decay rand fp localIncr b (ri+1)

/-- One row of the matrix loop of `Sample`: occupy an empty cell, add to a
fingerprint match (`uint32` wrap), or run the collision decay loop.  Returns
the cell, the contribution to `maxCount` and the advanced random cursor. -/
def sampleRow (decay : ℚ) (rand : RandFn) (fp incr : Nat) (b : Bucket)
    (ri : Nat) : Bucket × Nat × Nat :=
  if b.count = 0 then (⟨fp, incr⟩, incr, ri)
  else if b.fingerprint = fp then
    (⟨b.fingerprint, (b.count + incr) % U32MOD⟩, (b.count + incr) % U32MOD, ri)
  else decayLoop decay rand fp incr b ri

/-- The row loop of `Sample`: `rows` rows remain, `i` is the current row, `m`
the running `maxCount`; the cell index is `slot(flow, i, width) + i*width`;
`none` models an out-of-range slice access. -/
def sampleLoop (hash : HashFn) (rand : RandFn) (decay : ℚ) (flow : String)
    (fp incr width : Nat) :
    Nat → Nat → List Bucket → Nat → Nat → Option (List Bucket × Nat × Nat)
  | 0, _, bs, m, ri => some (bs, m, ri)
  | rows+1, i, bs, m, ri =>
    match bs[slot hash flow i width + i * width]? with
    | none => none
    | some b =>
      let r := sampleRow decay rand fp incr b ri
      sampleLoop hash rand decay flow fp incr width rows (i+1)
        (bs.set (slot hash flow i width + i * width) r.1) (max m r.2.1) r.2.2

/-- Go `HeavyKeeper.Sample(flow, incr)`: run the matrix update, then admit the
flow into the heap when `maxCount >= heapMin` — in place when the flow already
has a heap slot, else over the root — restoring the heap with `heap.Fix`.
Returns the updated sketch, the admission boolean, and the advanced random
cursor. -/
def Sample (hash : HashFn) (rand : RandFn) (hk : HeavyKeeper) (flow : String)
    (incr ri : Nat) : Option (HeavyKeeper × Bool × Nat) :=
  match hk.heap.head? with
  | none => none
  | some h0 =>
    match sampleLoop hash rand hk.decay flow (fingerprint hash flow) incr
        hk.width hk.depth 0 hk.buckets 0 ri with
    | none => none
    | some (bs, maxCount, ri') =>
      if h0.Count ≤ maxCount then
        match heapFind hk.heap flow with
        | some i =>
          some ({ hk with
                    buckets := bs
                    heap := heapFix
                      (hk.heap.set i ⟨(hk.heap.getD i default).Flow, maxCount⟩)
                      i },
                true, ri')
        | none =>
          some ({ hk with
                    buckets := bs
                    heap := heapFix (hk.heap.set 0 ⟨flow, maxCount⟩) 0 },
                true, ri')
      else
        some ({ hk with buckets := bs }, false, ri')

/-! ## The spec's wording of the matrix update (§4.1), for comparison

These definitions follow the specification's sentences rather than the Go
loops: the decay procedure consumes an explicit list of uniform draws one
increment-unit at a time, and the per-call maximum is the maximum over the
explicit list of per-row contributions. -/

/-- Spec §4.1 step 5: for each increment unit, draw `r`; if
`r < decay^count`, decrement the occupant; a count that reaches zero means
the incoming flow evicts the occupant — the cell is re-occupied with `fp` and
the number of increment-units remaining (the current unit plus the unread
draws) and the row stops early.  A surviving occupant contributes nothing
(`0`). -/
def rowDecaySpec (decay : ℚ) (fp : Nat) : List ℚ → Bucket → Bucket × Nat
  | [], b => (b, 0)
  | r :: rs, b =>
    if r < decay ^ b.count then
      if b.count = 1 then (⟨fp, rs.length + 1⟩, rs.length + 1)
      else rowDecaySpec decay fp rs ⟨b.fingerprint, b.count - 1⟩
    else rowDecaySpec decay fp rs b

/-- The `n` uniform draws a row starting at cursor `ri` can read. -/
def draws (rand : RandFn) (ri n : Nat) : List ℚ :=
  (List.range n).map (fun t => rand (ri + t))

/-- Spec §4.1 steps 3–5 for one row: occupy an empty cell with
`(fp, increment)`, add the increment on a fingerprint match, else run the
probabilistic decay; the second component is the row's contribution to the
per-call maximum. -/
def sampleRowSpec (decay : ℚ) (rand : RandFn) (fp incr : Nat) (b : Bucket)
    (ri : Nat) : Bucket × Nat :=
  if b.count = 0 then (⟨fp, incr⟩, incr)
  else if b.fingerprint = fp then
    (⟨fp, (b.count + incr) % U32MOD⟩, (b.count + incr) % U32MOD)
  else rowDecaySpec decay fp (draws rand ri incr) b

/-- The row traversal with the list of per-row contributions made explicit,
so that `maxCount` can be stated as a maximum over rows. -/
def rowResults (hash : HashFn) (rand : RandFn) (decay : ℚ) (flow : String)
    (fp incr width : Nat) :
    Nat → Nat → List Bucket → Nat → Option (List Bucket × List Nat × Nat)
  | 0, _, bs, ri => some (bs, [], ri)
  | rows+1, i, bs, ri =>
    match bs[slot hash flow i width + i * width]? with
    | none => none
    | some b =>
      let r := sampleRow decay rand fp incr b ri
      (rowResults hash rand decay flow fp incr width rows (i+1)
        (bs.set (slot hash flow i width + i * width) r.1) r.2.2).map
        (fun x => (x.1, r.2.1 :: x.2.1, x.2.2))

/-! ## Queries and maintenance -/

/-- Go `HeavyKeeper.Count(flow)`: linear scan of the heap only. -/
def Count (hk : HeavyKeeper) (flow : String) : Nat × Bool :=
  match hk.heap.find? (fun e => e.Flow == flow) with
  | some e => (e.Count, true)
  | none => (0, false)

/-- The insertion step of the stable descending sort: `e` goes in front of
exactly the elements whose count is at most its own, so earlier elements stay
in front of later ones on ties. -/
def insertDesc (e : FlowCount) : List FlowCount → List FlowCount
  | [] => [e]
  | x :: xs => if x.Count ≤ e.Count then e :: x :: xs else x :: insertDesc e xs

/-- Go `sort.Stable(sort.Reverse(byCount(top)))`.  `sort.Stable` is Go stdlib
(an external collaborator of the core); its contract — a stable sort by the
given comparator, here descending count — is realized as an insertion sort. -/
def sortDesc : List FlowCount → List FlowCount
  | [] => []
  | x :: xs => insertDesc x (sortDesc xs)

/-- The trim loop of `TopInto`: `end` walks back over the trailing zero-count
entries, and the slice is cut there. -/
def dropZeroSuffix (l : List FlowCount) : List FlowCount :=
  (l.reverse.dropWhile (fun e => e.Count == 0)).reverse

/-- Go `HeavyKeeper.Top()` / `TopInto` with a fresh buffer: copy the heap,
stable-sort it descending by count, and trim the zero-count suffix.  The Go
method writes none of the receiver's fields, so it is embedded as a pure
function of the sketch. -/
def Top (hk : HeavyKeeper) : List FlowCount :=
  dropZeroSuffix (sortDesc hk.heap)

/-- Go `HeavyKeeper.Reset()`: zero every cell and every heap entry in place. -/
def Reset (hk : HeavyKeeper) : HeavyKeeper :=
  { hk with
    buckets := hk.buckets.map (fun _ => ⟨0, 0⟩)
    heap := hk.heap.map (fun _ => ⟨"", 0⟩) }

/-- Go `uint32(float64(c) * pct)` for `0 ≤ pct ≤ 1`: scale and truncate toward
zero (the `float64` product is modelled as the exact rational product). -/
def scaleCount (c : Nat) (pct : ℚ) : Nat := (⌊(c : ℚ) * pct⌋).toNat

/-- Go `HeavyKeeper.DecayAll(pct)`: no-op for `pct <= 0`, `Reset` for
`pct > 1`, otherwise every bucket count and every heap count is scaled by
`1 - pct` and truncated. -/
def DecayAll (hk : HeavyKeeper) (pct : ℚ) : HeavyKeeper :=
  if pct ≤ 0 then hk
  else if 1 < pct then Reset hk
  else
    { hk with
      buckets := hk.buckets.map
        (fun b => ⟨b.fingerprint, scaleCount b.count (1 - pct)⟩)
      heap := hk.heap.map (fun e => ⟨e.Flow, scaleCount e.Count (1 - pct)⟩) }

/-! ## Construction -/

/-- Go `int(float64(k) * math.Log(float64(k)))` then `max` with 256.  Go's
`int(·)` truncates toward zero, which for the non-negative `k·ln k` (`k ≥ 1`)
is the floor; `math.Log` is modelled as the exact `Real.log`, as in the spec's
sizing formula. -/
noncomputable def newWidth (k : Nat) : Nat :=
  let w := (⌊(k : ℝ) * Real.log k⌋).toNat
  if w < 256 then 256 else w

/-- Go `int(math.Log(float64(k)))` then `max` with 3. -/
noncomputable def newDepth (k : Nat) : Nat :=
  let d := (⌊Real.log k⌋).toNat
  if d < 3 then 3 else d

/-- Go `New(k, decay)`: `none` models the two argument-validation panics;
otherwise `depth*width` zero cells and `k` zero heap entries. -/
noncomputable def New (k : Int) (decay : ℚ) : Option HeavyKeeper :=
  if k < 1 then none
  else if decay ≤ 0 ∨ 1 < decay then none
  else
    some ⟨decay, newDepth k.toNat, newWidth k.toNat,
          List.replicate (newDepth k.toNat * newWidth k.toNat) ⟨0, 0⟩,
          List.replicate k.toNat ⟨"", 0⟩⟩

/-! ## Structural invariants -/

/-- The `container/heap` invariant for `minHeap`: no entry has a count below
its parent's. -/
def IsMinHeap (h : List FlowCount) : Prop :=
  ∀ j, 0 < j → j < h.length → hkey h ((j-1)/2) ≤ hkey h j

instance (h : List FlowCount) : Decidable (IsMinHeap h) :=
  decidable_of_iff
    (∀ j, j < h.length → 0 < j → hkey h ((j-1)/2) ≤ hkey h j)
    (by constructor
        · intro hb j h1 h2
          exact hb j h2 h1
        · intro hb j h2 h1
          exact hb j h1 h2)

/-- Well-formedness maintained by `New` and all operations: a non-empty heap
(`k ≥ 1`) and a `depth*width` bucket slice with a positive width. -/
def WF (hk : HeavyKeeper) : Prop :=
  hk.heap ≠ [] ∧ hk.buckets.length = hk.depth * hk.width ∧ 0 < hk.width

instance (hk : HeavyKeeper) : Decidable (WF hk) := by
  unfold WF; infer_instance

/-- Sift-down precondition: every heap edge not incident to `i` holds, and the
children of `i` are no smaller than `i`'s parent.  This is exactly the damage
overwriting position `i` of a valid heap can do. -/
def DownInv (h : List FlowCount) (i : Nat) : Prop :=
  (∀ j, 0 < j → j < h.length → (j-1)/2 ≠ i → j ≠ i →
    hkey h ((j-1)/2) ≤ hkey h j) ∧
  (∀ j, j < h.length → (j-1)/2 = i → 0 < i → hkey h ((i-1)/2) ≤ hkey h j)

/-- Sift-up precondition: every heap edge except the one into `j` holds, and
the children of `j` are no smaller than `j`'s parent. -/
def UpInv (h : List FlowCount) (j : Nat) : Prop :=
  (∀ t, 0 < t → t < h.length → t ≠ j → hkey h ((t-1)/2) ≤ hkey h t) ∧
  (∀ t, t < h.length → (t-1)/2 = j → 0 < j → hkey h ((j-1)/2) ≤ hkey h t)

/-- Descending comparison on counts, the order `Top` returns. -/
def DescByCount (a b : FlowCount) : Prop := b.Count ≤ a.Count

/-! ## Basic index lemmas -/

theorem length_hswap (h : List FlowCount) (i j : Nat) :
    (hswap h i j).length = h.length := by
  simp [hswap]

theorem hkey_set (h : List FlowCount) (i : Nat) (v : FlowCount) (t : Nat) :
    hkey (h.set i v) t =
      if i = t ∧ i < h.length then v.Count else hkey h t := by
  simp only [hkey, List.getD_eq_getElem?_getD, List.getElem?_set]
  by_cases h1 : i = t
  · subst h1
    by_cases h2 : i < h.length
    · simp [h2]
    · rw [List.getElem?_eq_none (by omega)]
      simp [h2]
  · simp [h1]

theorem hkey_hswap (h : List FlowCount) {i j : Nat} (hi : i < h.length)
    (hj : j < h.length) (t : Nat) :
    hkey (hswap h i j) t =
      if t = j then hkey h i else if t = i then hkey h j else hkey h t := by
  unfold hswap
  rw [hkey_set, hkey_set]
  have hgi : (h.getD i default).Count = hkey h i := rfl
  have hgj : (h.getD j default).Count = hkey h j := rfl
  simp only [List.length_set, hgi, hgj]
  by_cases cj : t = j
  · subst cj
    simp [hj]
  · by_cases ci : t = i
    · subst ci
      by_cases cij : j = t
      · simp [cij, hi]
      · simp [cij, cj, hi]
    · simp [ci, cj, Ne.symm (a := t) (b := j) cj, Ne.symm (a := t) (b := i) ci]

theorem parent_child_iff {i j : Nat} (hj : 0 < j) :
    (j-1)/2 = i ↔ j = 2*i+1 ∨ j = 2*i+2 := by
  omega

theorem downChild_gt (h : List FlowCount) (i : Nat) : i < downChild h i := by
  unfold downChild; split <;> omega

theorem downChild_parent (h : List FlowCount) (i : Nat) :
    (downChild h i - 1)/2 = i := by
  unfold downChild; split <;> omega

theorem downChild_lt_length (h : List FlowCount) (i : Nat)
    (_hl : 2*i+1 < h.length) : downChild h i < h.length := by
  unfold downChild; split <;> omega

/-- `downChild` is the minimum of the existing children. -/
theorem downChild_min (h : List FlowCount) (i : Nat) (_hl : 2*i+1 < h.length)
    {j : Nat} (hj : j < h.length) (hpar : (j-1)/2 = i) (hj0 : 0 < j) :
    hkey h (downChild h i) ≤ hkey h j := by
  rcases (parent_child_iff hj0).mp hpar with rfl | rfl <;>
    · unfold downChild
      split <;> omega

/-! ## Correctness of the `container/heap` sift primitives -/

/-- Swapping a too-large element at `i` with its least child re-establishes
the sift-down precondition one level down. -/
theorem downInv_hswap (h : List FlowCount) (i : Nat) (hl : 2*i+1 < h.length)
    (hinv : DownInv h i) :
    DownInv (hswap h i (downChild h i)) (downChild h i) := by
  have hi : i < h.length := by omega
  have hc : downChild h i < h.length := downChild_lt_length h i hl
  have hic : i < downChild h i := downChild_gt h i
  have hcp : (downChild h i - 1)/2 = i := downChild_parent h i
  constructor
  · intro j hj0 hjl hjp hjc
    rw [length_hswap] at hjl
    rw [hkey_hswap h hi hc, hkey_hswap h hi hc]
    by_cases hji : j = i
    · subst hji
      have hp0 : 0 < j := hj0
      have hpi : (j-1)/2 ≠ j := by omega
      have hpc : (j-1)/2 ≠ downChild h j := by omega
      simp only [if_neg hpc, if_neg hpi, if_neg (by omega : ¬ j = downChild h j),
        if_pos rfl]
      exact hinv.2 (downChild h j) hc hcp (by omega)
    · by_cases hpi : (j-1)/2 = i
      · simp only [if_neg hjc, if_neg hji, if_neg (by omega : ¬ (j-1)/2 = downChild h i),
          if_pos hpi]
        exact downChild_min h i hl hjl hpi hj0
      · simp only [if_neg hjc, if_neg hji, if_neg hjp, if_neg hpi]
        exact hinv.1 j hj0 hjl hpi hji
  · intro j hjl hjp hc0
    rw [length_hswap] at hjl
    rw [hkey_hswap h hi hc, hkey_hswap h hi hc, hcp]
    have hj0 : 0 < j := by omega
    have hjgt : downChild h i < j := by omega
    simp only [if_neg (by omega : ¬ j = downChild h i), if_neg (by omega : ¬ j = i),
      if_neg (by omega : ¬ i = downChild h i), if_pos rfl]
    have := hinv.1 j hj0 hjl (by omega : (j-1)/2 ≠ i) (by omega : j ≠ i)
    rw [hjp] at this
    exact this

/-- Full correctness of `container/heap.down`: the sift precondition travels
with the cursor, the final position dominates its children, and a cursor that
moved also respects its parent; a cursor that did not move left the array
untouched. -/
theorem heapDown_correct :
    ∀ (h : List FlowCount) (i : Nat), i < h.length → DownInv h i →
    (heapDown h i).1.length = h.length ∧
    i ≤ (heapDown h i).2 ∧
    (heapDown h i).2 < h.length ∧
    DownInv (heapDown h i).1 (heapDown h i).2 ∧
    (∀ j, j < h.length → (j-1)/2 = (heapDown h i).2 → 0 < j →
      hkey (heapDown h i).1 (heapDown h i).2 ≤ hkey (heapDown h i).1 j) ∧
    ((heapDown h i).2 ≠ i → 0 < (heapDown h i).2 →
      hkey (heapDown h i).1 (((heapDown h i).2 - 1)/2) ≤
        hkey (heapDown h i).1 (heapDown h i).2) ∧
    ((heapDown h i).2 = i → (heapDown h i).1 = h) := by
  intro h i
  induction h, i using heapDown.induct with
  | case1 h i hl hlt ih =>
    intro hi hinv
    have hc : downChild h i < h.length := downChild_lt_length h i hl
    have hic : i < downChild h i := downChild_gt h i
    have hcp : (downChild h i - 1)/2 = i := downChild_parent h i
    have heq : heapDown h i = heapDown (hswap h i (downChild h i)) (downChild h i) := by
      rw [heapDown.eq_def]
      simp only [dif_pos hl, if_pos hlt]
    have hlen : (hswap h i (downChild h i)).length = h.length := length_hswap h i _
    have hinv' : DownInv (hswap h i (downChild h i)) (downChild h i) :=
      downInv_hswap h i hl hinv
    obtain ⟨l1, l2, l3, l4, l5, l6, l7⟩ := ih (by omega) hinv'
    rw [heq]
    refine ⟨by omega, by omega, by omega, l4, ?_, ?_, ?_⟩
    · intro j hj hjp hj0
      exact l5 j (by omega) hjp hj0
    · intro _ h0
      by_cases hmov : (heapDown (hswap h i (downChild h i)) (downChild h i)).2
          = downChild h i
      · have := l7 hmov
        rw [this, hmov, hcp]
        rw [hkey_hswap h hi hc, hkey_hswap h hi hc]
        simp only [if_neg (by omega : ¬ i = downChild h i), if_pos rfl,
          if_pos (rfl : i = i)]
        exact le_of_lt hlt
      · exact l6 hmov h0
    · intro hfix
      exfalso
      omega
  | case2 h i hl hnlt =>
    intro hi hinv
    have heq : heapDown h i = (h, i) := by
      rw [heapDown.eq_def]
      simp only [dif_pos hl, if_neg hnlt]
    rw [heq]
    refine ⟨rfl, le_refl i, hi, hinv, ?_, ?_, fun _ => rfl⟩
    · intro j hj hjp hj0
      calc hkey h i ≤ hkey h (downChild h i) := by omega
        _ ≤ hkey h j := downChild_min h i hl hj hjp hj0
    · intro hne _
      exact absurd rfl hne
  | case3 h i hl =>
    intro hi hinv
    have heq : heapDown h i = (h, i) := by
      rw [heapDown.eq_def]
      simp only [dif_neg hl]
    rw [heq]
    refine ⟨rfl, le_refl i, hi, hinv, ?_, ?_, fun _ => rfl⟩
    · intro j hj hjp hj0
      exfalso
      have := (parent_child_iff hj0).mp hjp
      omega
    · intro hne _
      exact absurd rfl hne

/-- Swapping a too-small element at `j` with its parent re-establishes the
sift-up precondition one level up. -/
theorem upInv_hswap (h : List FlowCount) (j : Nat) (hj : j < h.length)
    (hj0 : 0 < j) (hinv : UpInv h j)
    (hlt : hkey h j < hkey h ((j-1)/2)) :
    UpInv (hswap h ((j-1)/2) j) ((j-1)/2) := by
  have hij : (j-1)/2 < j := by omega
  have hi : (j-1)/2 < h.length := by omega
  constructor
  · intro t ht0 htl hti
    rw [length_hswap] at htl
    rw [hkey_hswap h hi hj, hkey_hswap h hi hj]
    by_cases htj : t = j
    · subst htj
      simp only [if_pos rfl, if_neg (by omega : ¬ (t-1)/2 = t),
        if_pos (rfl : (t-1)/2 = (t-1)/2)]
      exact le_of_lt hlt
    · by_cases htp : (t-1)/2 = (j-1)/2
      · -- t is a sibling of j under the same parent
        simp only [if_neg htj, if_neg hti, htp,
          if_neg (by omega : ¬ (j-1)/2 = j), eq_self_iff_true, if_true]
        refine le_trans (le_of_lt hlt) ?_
        have := hinv.1 t ht0 htl htj
        rw [htp] at this
        exact this
      · by_cases htpj : (t-1)/2 = j
        · -- t is a child of j
          simp only [if_neg htj, if_neg hti, htpj, if_pos rfl]
          exact hinv.2 t htl htpj hj0
        · simp only [if_neg htj, if_neg hti, if_neg htpj, if_neg htp]
          exact hinv.1 t ht0 htl htj
  · intro t htl htp hi0
    rw [length_hswap] at htl
    have ht0 : 0 < t := by omega
    have htnei : t ≠ (j-1)/2 := by omega
    have hpar_i : hkey h (((j-1)/2 - 1)/2) ≤ hkey h ((j-1)/2) :=
      hinv.1 ((j-1)/2) hi0 hi (by omega)
    rw [hkey_hswap h hi hj, hkey_hswap h hi hj]
    simp only [if_neg (by omega : ¬ ((j-1)/2 - 1)/2 = j),
      if_neg (by omega : ¬ ((j-1)/2 - 1)/2 = (j-1)/2)]
    by_cases htj : t = j
    · simp only [if_pos htj]
      exact hpar_i
    · simp only [if_neg htj, if_neg htnei]
      refine le_trans hpar_i ?_
      have := hinv.1 t ht0 htl htj
      rw [htp] at this
      exact this

/-- When the sift-up stop condition holds, the precondition already is the
full heap invariant. -/
theorem isMinHeap_of_upInv_stop (h : List FlowCount) (j : Nat)
    (hinv : UpInv h j)
    (hstop : (j-1)/2 = j ∨ ¬ hkey h j < hkey h ((j-1)/2)) :
    IsMinHeap h := by
  intro t ht0 htl
  by_cases htj : t = j
  · subst htj
    rcases hstop with hstop | hstop
    · omega
    · omega
  · exact hinv.1 t ht0 htl htj

/-- Full correctness of `container/heap.up`. -/
theorem heapUp_correct :
    ∀ (h : List FlowCount) (j : Nat), j < h.length → UpInv h j →
    IsMinHeap (heapUp h j) ∧ (heapUp h j).length = h.length := by
  intro h j
  induction h, j using heapUp.induct with
  | case1 h j hstop =>
    intro hj hinv
    rw [heapUp.eq_def, if_pos hstop]
    exact ⟨isMinHeap_of_upInv_stop h j hinv hstop, rfl⟩
  | case2 h j hstop ih =>
    intro hj hinv
    rw [heapUp.eq_def, if_neg hstop]
    push_neg at hstop
    obtain ⟨hne, hlt⟩ := hstop
    have hj0 : 0 < j := by omega
    have hinv' := upInv_hswap h j hj hj0 hinv hlt
    have hlen : (hswap h ((j-1)/2) j).length = h.length := length_hswap h _ _
    obtain ⟨h1, h2⟩ := ih (by omega) hinv'
    exact ⟨h1, by omega⟩

/-- Overwriting one position of a valid heap leaves exactly the sift-down
precondition at that position. -/
theorem downInv_set (h : List FlowCount) (hH : IsMinHeap h) (i : Nat)
    (v : FlowCount) : DownInv (h.set i v) i := by
  constructor
  · intro j hj0 hjl hjp hjc
    rw [List.length_set] at hjl
    rw [hkey_set, hkey_set]
    have c1 : ¬ (i = (j-1)/2 ∧ i < h.length) := fun hc => hjp hc.1.symm
    have c2 : ¬ (i = j ∧ i < h.length) := fun hc => hjc hc.1.symm
    simp only [if_neg c1, if_neg c2]
    exact hH j hj0 hjl
  · intro j hjl hjp hi0
    rw [List.length_set] at hjl
    have hj0 : 0 < j := by omega
    have hij : i < j := by omega
    rw [hkey_set, hkey_set]
    simp only [if_neg (by omega : ¬ (i = (i-1)/2 ∧ i < h.length)),
      if_neg (by omega : ¬ (i = j ∧ i < h.length))]
    refine le_trans (hH i hi0 (by omega)) ?_
    have := hH j hj0 hjl
    rw [hjp] at this
    exact this

/-- The three facts `heapDown` leaves at its final position assemble into the
full heap invariant. -/
theorem isMinHeap_of_downInv (h : List FlowCount) (i : Nat)
    (hinv : DownInv h i)
    (hchild : ∀ j, j < h.length → (j-1)/2 = i → 0 < j → hkey h i ≤ hkey h j)
    (hpar : 0 < i → hkey h ((i-1)/2) ≤ hkey h i) :
    IsMinHeap h := by
  intro t ht0 htl
  by_cases hti : t = i
  · subst hti
    exact hpar ht0
  · by_cases htp : (t-1)/2 = i
    · rw [htp]
      exact hchild t htl htp ht0
    · exact hinv.1 t ht0 htl htp hti

/-- Correctness of `container/heap.Fix` run at a position of a heap that is
valid except for the damage described by `DownInv`: the heap invariant is
restored and the length kept. -/
theorem heapFix_correct (h : List FlowCount) (i : Nat) (hi : i < h.length)
    (hinv : DownInv h i) :
    IsMinHeap (heapFix h i) ∧ (heapFix h i).length = h.length := by
  obtain ⟨l1, l2, l3, l4, l5, l6, l7⟩ := heapDown_correct h i hi hinv
  unfold heapFix
  by_cases hmov : (heapDown h i).2 ≠ i
  · rw [if_pos hmov]
    refine ⟨?_, l1⟩
    refine isMinHeap_of_downInv _ _ l4 ?_ ?_
    · intro j hj hjp hj0
      exact l5 j (by omega) hjp hj0
    · intro h0
      exact l6 hmov h0
  · rw [if_neg hmov]
    push_neg at hmov
    have hfix := l7 hmov
    have hup : UpInv h i := by
      constructor
      · intro t ht0 htl hti
        by_cases htp : (t-1)/2 = i
        · rw [htp]
          have := l5 t htl (by rw [hmov]; exact htp) ht0
          rw [hfix, hmov] at this
          exact this
        · exact hinv.1 t ht0 htl htp hti
      · exact hinv.2
    exact heapUp_correct h i hi hup

/-- In a valid min-heap the root key is the minimum — Go reads the heap
minimum as `h[0].Count`. -/
theorem isMinHeap_root_min (h : List FlowCount) (hH : IsMinHeap h) :
    ∀ j, j < h.length → hkey h 0 ≤ hkey h j := by
  intro j
  induction j using Nat.strong_induction_on with
  | _ j ih =>
    intro hj
    by_cases hj0 : j = 0
    · subst hj0
      exact le_refl _
    · refine le_trans (ih ((j-1)/2) (by omega) (by omega)) ?_
      exact hH j (by omega) hj

/-! ## The stable descending sort and the zero trim of `TopInto` -/

theorem perm_insertDesc (e : FlowCount) (l : List FlowCount) :
    (insertDesc e l).Perm (e :: l) := by
  induction l with
  | nil => exact List.Perm.refl _
  | cons x xs ih =>
    unfold insertDesc
    split
    · exact List.Perm.refl _
    · exact List.Perm.trans (List.Perm.cons x ih) (List.Perm.swap e x xs)

theorem sortDesc_perm (l : List FlowCount) : (sortDesc l).Perm l := by
  induction l with
  | nil => exact List.Perm.refl _
  | cons x xs ih =>
    exact List.Perm.trans (perm_insertDesc x (sortDesc xs)) (List.Perm.cons x ih)

theorem sorted_insertDesc (e : FlowCount) (l : List FlowCount)
    (hs : List.Pairwise DescByCount l) :
    List.Pairwise DescByCount (insertDesc e l) := by
  induction l with
  | nil => simp [insertDesc, DescByCount]
  | cons x xs ih =>
    unfold insertDesc
    rcases List.pairwise_cons.mp hs with ⟨hx, hxs⟩
    split
    · refine List.pairwise_cons.mpr ⟨?_, hs⟩
      intro t ht
      rcases List.mem_cons.mp ht with rfl | ht
      · assumption
      · exact le_trans (hx t ht) (by assumption)
    · refine List.pairwise_cons.mpr ⟨?_, ih hxs⟩
      intro t ht
      have ht' := (perm_insertDesc e xs).mem_iff.mp ht
      rcases List.mem_cons.mp ht' with rfl | ht'
      · exact le_of_not_le (by assumption)
      · exact hx t ht'

theorem sortDesc_sorted (l : List FlowCount) :
    List.Pairwise DescByCount (sortDesc l) := by
  induction l with
  | nil => simp [sortDesc]
  | cons x xs ih => exact sorted_insertDesc x (sortDesc xs) ih

/-- Stability of `insertDesc`, by count class: the elements of any one count
keep their relative order, because an inserted element passes only elements
with strictly larger counts. -/
theorem filter_count_insertDesc (c : Nat) (e : FlowCount) (l : List FlowCount) :
    (insertDesc e l).filter (fun x => x.Count == c) =
      if e.Count = c then e :: l.filter (fun x => x.Count == c)
      else l.filter (fun x => x.Count == c) := by
  induction l with
  | nil =>
    by_cases hc : e.Count = c <;> simp [insertDesc, List.filter_cons, hc]
  | cons x xs ih =>
    unfold insertDesc
    split
    · by_cases hc : e.Count = c <;> simp [List.filter_cons, hc]
    · have hgt : e.Count < x.Count := by omega
      by_cases hc : e.Count = c
      · have hxc : ¬ (x.Count == c) = true := by
          simp only [beq_iff_eq]
          omega
        simp only [List.filter_cons, ih, if_pos hc, hxc]
        simp
      · simp only [List.filter_cons, ih, if_neg hc]

theorem sortDesc_filter_count (c : Nat) (l : List FlowCount) :
    (sortDesc l).filter (fun x => x.Count == c) =
      l.filter (fun x => x.Count == c) := by
  induction l with
  | nil => rfl
  | cons x xs ih =>
    show (insertDesc x (sortDesc xs)).filter _ = _
    rw [filter_count_insertDesc c x (sortDesc xs), ih]
    by_cases hc : x.Count = c <;> simp [List.filter_cons, hc]

/-- In an ascending-by-count list, everything after the leading zeros is
positive. -/
theorem pos_of_mem_dropWhile_asc (l : List FlowCount)
    (hs : List.Pairwise (fun a b => a.Count ≤ b.Count) l) :
    ∀ e ∈ l.dropWhile (fun x => x.Count == 0), 0 < e.Count := by
  induction l with
  | nil => simp [List.dropWhile]
  | cons x xs ih =>
    rcases List.pairwise_cons.mp hs with ⟨hx, hxs⟩
    intro e he
    rw [List.dropWhile_cons] at he
    by_cases hz : x.Count = 0
    · rw [if_pos (by simpa using hz)] at he
      exact ih hxs e he
    · rw [if_neg (by simpa using hz)] at he
      rcases List.mem_cons.mp he with rfl | he
      · omega
      · have := hx e he
        omega

/-- What the trim loop removes is exactly a zero-count suffix. -/
theorem dropZeroSuffix_decomp (l : List FlowCount) :
    l = dropZeroSuffix l ++
        (l.reverse.takeWhile (fun e => e.Count == 0)).reverse ∧
    (∀ e ∈ (l.reverse.takeWhile (fun e => e.Count == 0)).reverse,
      e.Count = 0) := by
  constructor
  · have h1 := List.takeWhile_append_dropWhile (fun e => e.Count == 0) l.reverse
    have h2 : l.reverse.reverse = l := List.reverse_reverse l
    unfold dropZeroSuffix
    calc l = l.reverse.reverse := h2.symm
      _ = (List.takeWhile (fun e => e.Count == 0) l.reverse ++
            List.dropWhile (fun e => e.Count == 0) l.reverse).reverse := by
            rw [h1]
      _ = _ := by
            rw [List.reverse_append]
  · intro e he
    rw [List.mem_reverse] at he
    simpa using List.mem_takeWhile_imp he

theorem dropZeroSuffix_sublist (l : List FlowCount) :
    (dropZeroSuffix l).Sublist l := by
  unfold dropZeroSuffix
  have := (List.dropWhile_sublist (l := l.reverse)
    (fun e => e.Count == 0)).reverse
  simpa using this

/-- The positive-count filter passes through the zero trim. -/
theorem filter_dropZeroSuffix (c : Nat) (hc : c ≠ 0) (l : List FlowCount) :
    (dropZeroSuffix l).filter (fun x => x.Count == c) =
      l.filter (fun x => x.Count == c) := by
  obtain ⟨hdec, hzero⟩ := dropZeroSuffix_decomp l
  conv_rhs => rw [hdec]
  rw [List.filter_append]
  have : (l.reverse.takeWhile (fun e => e.Count == 0)).reverse.filter
      (fun x => x.Count == c) = [] := by
    rw [List.filter_eq_nil_iff]
    intro a ha
    have := hzero a ha
    simp only [beq_iff_eq]
    omega
  rw [this, List.append_nil]

/-- A heap whose counts are all zero trims to the empty snapshot. -/
theorem top_eq_nil_of_all_zero (h : List FlowCount)
    (hz : ∀ e ∈ h, e.Count = 0) :
    dropZeroSuffix (sortDesc h) = [] := by
  unfold dropZeroSuffix
  rw [List.dropWhile_eq_nil_iff.mpr ?_]
  · rfl
  · intro x hx
    rw [List.mem_reverse] at hx
    have hx' := (sortDesc_perm h).mem_iff.mp hx
    simpa using hz x hx'

/-- `find?` by flow succeeds on any list containing the flow, returning a
member with that flow. -/
theorem find?_flow_mem (h : List FlowCount) (flow : String)
    (hmem : flow ∈ h.map (fun e => e.Flow)) :
    ∃ e, h.find? (fun x => x.Flow == flow) = some e ∧ e ∈ h ∧ e.Flow = flow := by
  induction h with
  | nil => simp at hmem
  | cons x xs ih =>
    rw [List.map_cons, List.mem_cons] at hmem
    by_cases hx : x.Flow = flow
    · refine ⟨x, ?_, List.mem_cons_self x xs, hx⟩
      rw [List.find?_cons_of_pos]
      simpa using hx
    · rcases hmem with hmem | hmem
      · exact absurd hmem.symm hx
      · obtain ⟨e, h1, h2, h3⟩ := ih hmem
        refine ⟨e, ?_, List.mem_cons_of_mem x h2, h3⟩
        rw [List.find?_cons_of_neg]
        · exact h1
        · simpa using hx

/-! ## Claim theorems -/

/-- **C4**: for every `K ≥ 1`, valid decay and sketch state, `Top()` returns
at most `K` entries, sorted descending by count with ties kept in the heap's
iteration order (count classes are preserved verbatim), zero-count entries
excluded and every positive-count entry included; `Top` is embedded as a pure
function of the state — the Go method writes no field — so it has no side
effect on the heap or the matrix. -/
theorem C4_top_ranked_snapshot (hk : HeavyKeeper) (k : Nat)
    (hlen : hk.heap.length = k) (_hk1 : 1 ≤ k)
    (_hdecay : 0 < hk.decay ∧ hk.decay ≤ 1) :
    (Top hk).length ≤ k ∧
    List.Pairwise DescByCount (Top hk) ∧
    (∀ e ∈ Top hk, 0 < e.Count) ∧
    (∀ c : Nat, c ≠ 0 →
      (Top hk).filter (fun x => x.Count == c) =
        hk.heap.filter (fun x => x.Count == c)) ∧
    (∀ e ∈ hk.heap, 0 < e.Count → e ∈ Top hk) := by
  refine ⟨?_, ?_, ?_, ?_, ?_⟩
  · calc (Top hk).length ≤ (sortDesc hk.heap).length :=
          (dropZeroSuffix_sublist _).length_le
      _ = hk.heap.length := (sortDesc_perm hk.heap).length_eq
      _ = k := hlen
  · exact List.Pairwise.sublist (dropZeroSuffix_sublist _) (sortDesc_sorted _)
  · intro e he
    unfold Top dropZeroSuffix at he
    rw [List.mem_reverse] at he
    refine pos_of_mem_dropWhile_asc (sortDesc hk.heap).reverse ?_ e he
    have := sortDesc_sorted hk.heap
    rw [List.pairwise_reverse]
    exact this
  · intro c hc
    rw [show Top hk = dropZeroSuffix (sortDesc hk.heap) from rfl,
      filter_dropZeroSuffix c hc, sortDesc_filter_count]
  · intro e he hpos
    have h1 : e ∈ hk.heap.filter (fun x => x.Count == e.Count) :=
      List.mem_filter.mpr ⟨he, by simp⟩
    rw [← sortDesc_filter_count e.Count, ← filter_dropZeroSuffix e.Count
      (by omega)] at h1
    exact List.mem_of_mem_filter h1

/-- **C9**: `Count(flow)` returns `(0, false)` for any flow that occupies no
tracker slot — in particular one inserted earlier and since evicted — and it
reads the heap only: the buckets field is irrelevant to its result. -/
theorem C9_count_absent (hk : HeavyKeeper) (flow : String)
    (habs : ∀ e ∈ hk.heap, e.Flow ≠ flow) :
    Count hk flow = (0, false) ∧
    (∀ bs : List Bucket, Count { hk with buckets := bs } flow = Count hk flow) := by
  constructor
  · unfold Count
    rw [List.find?_eq_none.mpr (by intro x hx; simpa using habs x hx)]
  · intro bs
    rfl

/-- **C5 counterexample**: after `Reset`, `Count("")` answers `(0, true)` —
the zeroed tracker slots hold the empty flow string, and the linear scan
matches it — so `Count(x) = (0, false)` does not hold for *every* flow `x`. -/
theorem C5_reset_count_empty_flow :
    Count (Reset ⟨9/10, 1, 1, [⟨5, 7⟩], [⟨"a", 5⟩]⟩) "" = (0, true) ∧
    (0, true) ≠ ((0 : Nat), false) := by
  constructor
  · rfl
  · decide

/-- **C5 (amended)**: after `Reset()`, `Top()` is empty and `Count(x)` is
`(0, false)` for every *non-empty* flow `x` (`Count("")` is `(0, true)`, as
on a fresh sketch); the reset state is the all-zero state of its dimensions,
and a freshly constructed sketch is a fixed point of `Reset`. -/
theorem C5_reset_like_new (hk : HeavyKeeper) (flow : String) (hne : flow ≠ "") :
    Top (Reset hk) = [] ∧
    Count (Reset hk) flow = (0, false) ∧
    Reset hk = ⟨hk.decay, hk.depth, hk.width,
      List.replicate hk.buckets.length ⟨0, 0⟩,
      List.replicate hk.heap.length ⟨"", 0⟩⟩ ∧
    (∀ (k : Int) (d : ℚ) (hk' : HeavyKeeper), New k d = some hk' →
      Reset hk' = hk') := by
  refine ⟨?_, ?_, ?_, ?_⟩
  · refine top_eq_nil_of_all_zero _ ?_
    intro e he
    unfold Reset at he
    simp only [List.mem_map] at he
    obtain ⟨x, _, rfl⟩ := he
    rfl
  · unfold Count Reset
    rw [List.find?_eq_none.mpr ?_]
    intro x hx
    simp only [List.mem_map] at hx
    obtain ⟨y, _, rfl⟩ := hx
    simpa using fun hh => hne hh.symm
  · unfold Reset
    cases hk with
    | mk decay depth width buckets heap =>
      simp [List.map_const']
  · intro k d hk' hnew
    unfold New at hnew
    split_ifs at hnew
    injection hnew with hnew
    subst hnew
    unfold Reset
    simp [List.map_const']

/-- **C6**: `DecayAll(p)` is the identity for `p ≤ 0`, is `Reset` for
`p > 1`, and for `p ∈ (0, 1]` rewrites every matrix cell and every tracker
entry in place, keeping fingerprint and flow and replacing the count by
`count·(1-p)` truncated toward zero, uniformly. -/
theorem C6_decayAll_cases (p : ℚ) (hk : HeavyKeeper) :
    (p ≤ 0 → DecayAll hk p = hk) ∧
    (1 < p → DecayAll hk p = Reset hk) ∧
    (0 < p → p ≤ 1 →
      (DecayAll hk p).buckets.length = hk.buckets.length ∧
      (DecayAll hk p).heap.length = hk.heap.length ∧
      (∀ i, i < hk.buckets.length →
        (DecayAll hk p).buckets.getD i ⟨0, 0⟩ =
          ⟨(hk.buckets.getD i ⟨0, 0⟩).fingerprint,
            (⌊((hk.buckets.getD i ⟨0, 0⟩).count : ℚ) * (1 - p)⌋).toNat⟩) ∧
      (∀ i, i < hk.heap.length →
        (DecayAll hk p).heap.getD i default =
          ⟨(hk.heap.getD i default).Flow,
            (⌊((hk.heap.getD i default).Count : ℚ) * (1 - p)⌋).toNat⟩)) := by
  refine ⟨?_, ?_, ?_⟩
  · intro hp
    unfold DecayAll
    rw [if_pos hp]
  · intro hp
    unfold DecayAll
    rw [if_neg (by linarith), if_pos hp]
  · intro hp0 hp1
    unfold DecayAll
    rw [if_neg (by linarith), if_neg (by linarith)]
    refine ⟨by simp, by simp, ?_, ?_⟩
    · intro i hi
      rw [List.getD_eq_getElem?_getD, List.getD_eq_getElem?_getD,
        List.getElem?_map, List.getElem?_eq_getElem hi]
      rfl
    · intro i hi
      rw [List.getD_eq_getElem?_getD, List.getD_eq_getElem?_getD,
        List.getElem?_map, List.getElem?_eq_getElem hi]
      rfl

/-- **C10**: `DecayAll` with `p ∈ (0, 1]` never clears matrix fingerprints or
tracker flow identities; after `DecayAll(1.0)` every flow that held a tracker
slot still answers `Count = (0, true)` while `Top()` is empty — observably
different from `Reset`, whose tracker slots hold the empty flow string. -/
theorem C10_decay_keeps_identities (hk : HeavyKeeper) (p : ℚ) (flow : String)
    (hp0 : 0 < p) (hp1 : p ≤ 1) (hmem : flow ∈ hk.heap.map (fun e => e.Flow)) :
    ((DecayAll hk p).buckets.map (fun b => b.fingerprint) =
      hk.buckets.map (fun b => b.fingerprint)) ∧
    ((DecayAll hk p).heap.map (fun e => e.Flow) =
      hk.heap.map (fun e => e.Flow)) ∧
    Count (DecayAll hk 1) flow = (0, true) ∧
    Top (DecayAll hk 1) = [] ∧
    (flow ≠ "" → DecayAll hk 1 ≠ Reset hk) := by
  have hbranch : ∀ q : ℚ, 0 < q → q ≤ 1 → DecayAll hk q =
      { hk with
        buckets := hk.buckets.map
          (fun b => ⟨b.fingerprint, scaleCount b.count (1 - q)⟩)
        heap := hk.heap.map (fun e => ⟨e.Flow, scaleCount e.Count (1 - q)⟩) } := by
    intro q h0 h1
    unfold DecayAll
    rw [if_neg (by linarith), if_neg (by linarith)]
  have hflows : (DecayAll hk 1).heap.map (fun e => e.Flow) =
      hk.heap.map (fun e => e.Flow) := by
    rw [hbranch 1 one_pos le_rfl]
    simp [List.map_map]
  have hzero1 : ∀ e ∈ (DecayAll hk 1).heap, e.Count = 0 := by
    rw [hbranch 1 one_pos le_rfl]
    intro e he
    simp only [List.mem_map] at he
    obtain ⟨x, _, rfl⟩ := he
    simp [scaleCount]
  refine ⟨?_, ?_, ?_, ?_, ?_⟩
  · rw [hbranch p hp0 hp1]
    simp [List.map_map]
  · rw [hbranch p hp0 hp1]
    simp [List.map_map]
  · have hmem1 : flow ∈ (DecayAll hk 1).heap.map (fun e => e.Flow) := by
      rw [hflows]; exact hmem
    obtain ⟨e, h1, h2, h3⟩ := find?_flow_mem _ flow hmem1
    unfold Count
    rw [h1]
    show (e.Count, true) = ((0 : Nat), true)
    rw [hzero1 e h2]
  · exact top_eq_nil_of_all_zero _ hzero1
  · intro hflow heq
    have : flow ∈ (Reset hk).heap.map (fun e => e.Flow) := by
      rw [← heq, hflows]; exact hmem
    unfold Reset at this
    simp only [List.map_map, List.mem_map] at this
    obtain ⟨x, _, hx⟩ := this
    exact hflow (by simpa using hx.symm)

/-- Witness for `C4_top_ranked_snapshot` at a concrete sketch state. -/
theorem C4_top_ranked_snapshot_witness :
    ((⟨9/10, 1, 1, [⟨0, 0⟩], [⟨"a", 2⟩, ⟨"b", 1⟩]⟩ : HeavyKeeper).heap.length = 2 ∧
      1 ≤ 2 ∧ 0 < (9/10 : ℚ) ∧ (9/10 : ℚ) ≤ 1) ∧
    ((Top ⟨9/10, 1, 1, [⟨0, 0⟩], [⟨"a", 2⟩, ⟨"b", 1⟩]⟩).length ≤ 2 ∧
      List.Pairwise DescByCount (Top ⟨9/10, 1, 1, [⟨0, 0⟩], [⟨"a", 2⟩, ⟨"b", 1⟩]⟩) ∧
      (∀ e ∈ Top ⟨9/10, 1, 1, [⟨0, 0⟩], [⟨"a", 2⟩, ⟨"b", 1⟩]⟩, 0 < e.Count) ∧
      (∀ c : Nat, c ≠ 0 →
        (Top ⟨9/10, 1, 1, [⟨0, 0⟩], [⟨"a", 2⟩, ⟨"b", 1⟩]⟩).filter
            (fun x => x.Count == c) =
          (⟨9/10, 1, 1, [⟨0, 0⟩], [⟨"a", 2⟩, ⟨"b", 1⟩]⟩ : HeavyKeeper).heap.filter
            (fun x => x.Count == c)) ∧
      (∀ e ∈ (⟨9/10, 1, 1, [⟨0, 0⟩], [⟨"a", 2⟩, ⟨"b", 1⟩]⟩ : HeavyKeeper).heap,
        0 < e.Count → e ∈ Top ⟨9/10, 1, 1, [⟨0, 0⟩], [⟨"a", 2⟩, ⟨"b", 1⟩]⟩)) :=
  ⟨⟨by decide, by decide, by norm_num, by norm_num⟩,
    C4_top_ranked_snapshot _ 2 (by decide) (by decide) ⟨by norm_num, by norm_num⟩⟩

/-- Witness for `C9_count_absent` at a concrete state and flow. -/
theorem C9_count_absent_witness :
    (∀ e ∈ (⟨9/10, 1, 1, [⟨0, 0⟩], [⟨"a", 3⟩]⟩ : HeavyKeeper).heap,
      e.Flow ≠ "z") ∧
    (Count ⟨9/10, 1, 1, [⟨0, 0⟩], [⟨"a", 3⟩]⟩ "z" = (0, false) ∧
      (∀ bs : List Bucket,
        Count { (⟨9/10, 1, 1, [⟨0, 0⟩], [⟨"a", 3⟩]⟩ : HeavyKeeper) with
            buckets := bs } "z" =
          Count ⟨9/10, 1, 1, [⟨0, 0⟩], [⟨"a", 3⟩]⟩ "z")) :=
  ⟨by decide, C9_count_absent _ "z" (by decide)⟩

/-- Witness for `C5_reset_like_new` at a concrete state and flow. -/
theorem C5_reset_like_new_witness :
    ("x" ≠ "") ∧
    (Top (Reset ⟨9/10, 1, 1, [⟨5, 7⟩], [⟨"a", 5⟩]⟩) = [] ∧
      Count (Reset ⟨9/10, 1, 1, [⟨5, 7⟩], [⟨"a", 5⟩]⟩) "x" = (0, false) ∧
      Reset ⟨9/10, 1, 1, [⟨5, 7⟩], [⟨"a", 5⟩]⟩ =
        ⟨9/10, 1, 1, List.replicate 1 ⟨0, 0⟩, List.replicate 1 ⟨"", 0⟩⟩ ∧
      (∀ (k : Int) (d : ℚ) (hk' : HeavyKeeper), New k d = some hk' →
        Reset hk' = hk')) :=
  ⟨by decide, C5_reset_like_new ⟨9/10, 1, 1, [⟨5, 7⟩], [⟨"a", 5⟩]⟩ "x" (by decide)⟩

/-- Witness for `C6_decayAll_cases`, one instantiation per case. -/
theorem C6_decayAll_cases_witness :
    ((0 : ℚ) ≤ 0 ∧
      DecayAll ⟨9/10, 1, 1, [⟨7, 10⟩], [⟨"a", 10⟩]⟩ 0 =
        ⟨9/10, 1, 1, [⟨7, 10⟩], [⟨"a", 10⟩]⟩) ∧
    (1 < (2 : ℚ) ∧
      DecayAll ⟨9/10, 1, 1, [⟨7, 10⟩], [⟨"a", 10⟩]⟩ 2 =
        Reset ⟨9/10, 1, 1, [⟨7, 10⟩], [⟨"a", 10⟩]⟩) ∧
    (0 < (1/2 : ℚ) ∧ (1/2 : ℚ) ≤ 1 ∧
      ((DecayAll ⟨9/10, 1, 1, [⟨7, 10⟩], [⟨"a", 10⟩]⟩ (1/2)).buckets.length =
          (⟨9/10, 1, 1, [⟨7, 10⟩], [⟨"a", 10⟩]⟩ : HeavyKeeper).buckets.length ∧
        (DecayAll ⟨9/10, 1, 1, [⟨7, 10⟩], [⟨"a", 10⟩]⟩ (1/2)).heap.length =
          (⟨9/10, 1, 1, [⟨7, 10⟩], [⟨"a", 10⟩]⟩ : HeavyKeeper).heap.length ∧
        (∀ i, i < (⟨9/10, 1, 1, [⟨7, 10⟩], [⟨"a", 10⟩]⟩ : HeavyKeeper).buckets.length →
          (DecayAll ⟨9/10, 1, 1, [⟨7, 10⟩], [⟨"a", 10⟩]⟩ (1/2)).buckets.getD i ⟨0, 0⟩ =
            ⟨((⟨9/10, 1, 1, [⟨7, 10⟩], [⟨"a", 10⟩]⟩ : HeavyKeeper).buckets.getD i
                ⟨0, 0⟩).fingerprint,
              (⌊(((⟨9/10, 1, 1, [⟨7, 10⟩], [⟨"a", 10⟩]⟩ : HeavyKeeper).buckets.getD i
                  ⟨0, 0⟩).count : ℚ) * (1 - 1/2)⌋).toNat⟩) ∧
        (∀ i, i < (⟨9/10, 1, 1, [⟨7, 10⟩], [⟨"a", 10⟩]⟩ : HeavyKeeper).heap.length →
          (DecayAll ⟨9/10, 1, 1, [⟨7, 10⟩], [⟨"a", 10⟩]⟩ (1/2)).heap.getD i default =
            ⟨((⟨9/10, 1, 1, [⟨7, 10⟩], [⟨"a", 10⟩]⟩ : HeavyKeeper).heap.getD i
                default).Flow,
              (⌊(((⟨9/10, 1, 1, [⟨7, 10⟩], [⟨"a", 10⟩]⟩ : HeavyKeeper).heap.getD i
                  default).Count : ℚ) * (1 - 1/2)⌋).toNat⟩))) :=
  ⟨⟨by norm_num, (C6_decayAll_cases 0 _).1 (by norm_num)⟩,
    ⟨by norm_num, (C6_decayAll_cases 2 _).2.1 (by norm_num)⟩,
    ⟨by norm_num, by norm_num,
      (C6_decayAll_cases (1/2) _).2.2 (by norm_num) (by norm_num)⟩⟩

/-- Witness for `C10_decay_keeps_identities` at a concrete state. -/
theorem C10_decay_keeps_identities_witness :
    (0 < (1/2 : ℚ) ∧ (1/2 : ℚ) ≤ 1 ∧
      "a" ∈ (⟨9/10, 1, 1, [⟨7, 10⟩], [⟨"a", 10⟩]⟩ : HeavyKeeper).heap.map
        (fun e => e.Flow)) ∧
    (((DecayAll ⟨9/10, 1, 1, [⟨7, 10⟩], [⟨"a", 10⟩]⟩ (1/2)).buckets.map
          (fun b => b.fingerprint) =
        (⟨9/10, 1, 1, [⟨7, 10⟩], [⟨"a", 10⟩]⟩ : HeavyKeeper).buckets.map
          (fun b => b.fingerprint)) ∧
      ((DecayAll ⟨9/10, 1, 1, [⟨7, 10⟩], [⟨"a", 10⟩]⟩ (1/2)).heap.map
          (fun e => e.Flow) =
        (⟨9/10, 1, 1, [⟨7, 10⟩], [⟨"a", 10⟩]⟩ : HeavyKeeper).heap.map
          (fun e => e.Flow)) ∧
      Count (DecayAll ⟨9/10, 1, 1, [⟨7, 10⟩], [⟨"a", 10⟩]⟩ 1) "a" = (0, true) ∧
      Top (DecayAll ⟨9/10, 1, 1, [⟨7, 10⟩], [⟨"a", 10⟩]⟩ 1) = [] ∧
      ("a" ≠ "" → DecayAll ⟨9/10, 1, 1, [⟨7, 10⟩], [⟨"a", 10⟩]⟩ 1 ≠
        Reset ⟨9/10, 1, 1, [⟨7, 10⟩], [⟨"a", 10⟩]⟩)) :=
  ⟨⟨by norm_num, by norm_num, by decide⟩,
    C10_decay_keeps_identities _ (1/2) "a" (by norm_num) (by norm_num) (by decide)⟩

/-! ## The matrix loop against the spec's wording -/

theorem draws_zero (rand : RandFn) (ri : Nat) : draws rand ri 0 = [] := rfl

theorem draws_length (rand : RandFn) (ri n : Nat) :
    (draws rand ri n).length = n := by
  simp [draws]

theorem draws_succ (rand : RandFn) (ri n : Nat) :
    draws rand ri (n+1) = rand ri :: draws rand (ri+1) n := by
  unfold draws
  rw [List.range_succ_eq_map, List.map_cons, List.map_map]
  congr 1
  congr 1
  funext t
  simp only [Function.comp_apply]
  congr 1
  omega

/-- The Go decay loop agrees with the spec's per-unit procedure over the
draws it can read (the `uint32` wrap of `count--` is invisible for occupants
in range). -/
theorem decayLoop_eq_spec (decay : ℚ) (rand : RandFn) (fp : Nat) :
    ∀ (l : Nat) (b : Bucket) (ri : Nat), 0 < b.count → b.count < U32MOD →
    ((decayLoop decay rand fp l b ri).1, (decayLoop decay rand fp l b ri).2.1) =
      rowDecaySpec decay fp (draws rand ri l) b := by
  intro l
  induction l with
  | zero =>
    intro b ri _ _
    rfl
  | succ l ih =>
    intro b ri hb0 hbU
    rw [draws_succ]
    have hc : (b.count + (U32MOD - 1)) % U32MOD = b.count - 1 := by
      have h1 : b.count + (U32MOD - 1) = (b.count - 1) + U32MOD := by
        unfold U32MOD at *
        omega
      rw [h1, Nat.add_mod_right, Nat.mod_eq_of_lt (by unfold U32MOD at *; omega)]
    rw [decayLoop.eq_2, rowDecaySpec.eq_2, hc]
    by_cases hr : rand ri < decay ^ b.count
    · rw [if_pos hr, if_pos hr]
      by_cases h1 : b.count = 1
      · rw [if_pos (by omega), if_pos h1, draws_length]
      · rw [if_neg (by omega), if_neg h1]
        exact ih ⟨b.fingerprint, b.count - 1⟩ (ri+1)
          (show 0 < b.count - 1 by omega)
          (show b.count - 1 < U32MOD by omega)
    · rw [if_neg hr, if_neg hr]
      exact ih b (ri+1) hb0 hbU

/-- One row of the Go loop agrees with the spec's wording of steps 3–5. -/
theorem sampleRow_eq_spec (decay : ℚ) (rand : RandFn) (fp incr : Nat)
    (b : Bucket) (ri : Nat) (hbU : b.count < U32MOD) :
    ((sampleRow decay rand fp incr b ri).1,
      (sampleRow decay rand fp incr b ri).2.1) =
      sampleRowSpec decay rand fp incr b ri := by
  unfold sampleRow sampleRowSpec
  by_cases h0 : b.count = 0
  · rw [if_pos h0, if_pos h0]
  · rw [if_neg h0, if_neg h0]
    by_cases hfp : b.fingerprint = fp
    · rw [if_pos hfp, if_pos hfp, hfp]
    · rw [if_neg hfp, if_neg hfp]
      exact decayLoop_eq_spec decay rand fp incr b ri
        (Nat.pos_of_ne_zero h0) hbU

/-- Each row contributes either nothing (the occupant survived) or exactly
the count it wrote under the incoming flow's fingerprint. -/
theorem rowDecaySpec_contrib (decay : ℚ) (fp : Nat) :
    ∀ (ds : List ℚ) (b : Bucket),
    (rowDecaySpec decay fp ds b).2 = 0 ∨
      ((rowDecaySpec decay fp ds b).1.fingerprint = fp ∧
        (rowDecaySpec decay fp ds b).1.count = (rowDecaySpec decay fp ds b).2) := by
  intro ds
  induction ds with
  | nil =>
    intro b
    exact Or.inl rfl
  | cons r rs ih =>
    intro b
    rw [rowDecaySpec.eq_2]
    by_cases hr : r < decay ^ b.count
    · rw [if_pos hr]
      by_cases h1 : b.count = 1
      · rw [if_pos h1]
        exact Or.inr ⟨rfl, rfl⟩
      · rw [if_neg h1]
        exact ih _
    · rw [if_neg hr]
      exact ih b

/-- The Go row loop is the explicit row traversal with `maxCount` folded as a
running maximum over the per-row contributions. -/
theorem sampleLoop_eq_rowResults (hash : HashFn) (rand : RandFn) (decay : ℚ)
    (flow : String) (fp incr width : Nat) :
    ∀ (rows i : Nat) (bs : List Bucket) (m ri : Nat),
    sampleLoop hash rand decay flow fp incr width rows i bs m ri =
      (rowResults hash rand decay flow fp incr width rows i bs ri).map
        (fun x => (x.1, x.2.1.foldl max m, x.2.2)) := by
  intro rows
  induction rows with
  | zero =>
    intro i bs m ri
    rfl
  | succ rows ih =>
    intro i bs m ri
    rw [sampleLoop.eq_2, rowResults.eq_2]
    cases hj : bs[slot hash flow i width + i * width]? with
    | none => rfl
    | some b =>
      dsimp only
      rw [ih]
      cases hrr : rowResults hash rand decay flow fp incr width rows (i+1)
          (bs.set (slot hash flow i width + i * width)
            (sampleRow decay rand fp incr b ri).1)
          (sampleRow decay rand fp incr b ri).2.2 with
      | none => rfl
      | some x =>
        rfl

/-- **C1**: for every flow and positive increment the matrix update treats
each row exactly as the spec words it — occupy an empty cell with the
increment, add the increment on a fingerprint match, otherwise run one
uniform draw per increment-unit against `decay^count`, evicting into the cell
with the remaining units once the count reaches zero and stopping that row —
and the resulting `maxCount` is the maximum over the per-row contributions,
a surviving occupant's row contributing nothing (`0`). -/
theorem C1_matrix_update_follows_spec (decay : ℚ) (hash : HashFn)
    (rand : RandFn) (flow : String) (fp incr width : Nat) (b : Bucket)
    (ri : Nat) (_hincr : 0 < incr) (hbU : b.count < U32MOD) :
    (((sampleRow decay rand fp incr b ri).1,
        (sampleRow decay rand fp incr b ri).2.1) =
      sampleRowSpec decay rand fp incr b ri) ∧
    (∀ (rows i : Nat) (bs : List Bucket) (ri' : Nat),
      sampleLoop hash rand decay flow fp incr width rows i bs 0 ri' =
        (rowResults hash rand decay flow fp incr width rows i bs ri').map
          (fun x => (x.1, x.2.1.foldl max 0, x.2.2))) ∧
    (∀ (ds : List ℚ) (b' : Bucket),
      (rowDecaySpec decay fp ds b').2 = 0 ∨
        ((rowDecaySpec decay fp ds b').1.fingerprint = fp ∧
          (rowDecaySpec decay fp ds b').1.count =
            (rowDecaySpec decay fp ds b').2)) :=
  ⟨sampleRow_eq_spec decay rand fp incr b ri hbU,
    fun rows i bs ri' => sampleLoop_eq_rowResults hash rand decay flow fp incr
      width rows i bs 0 ri',
    rowDecaySpec_contrib decay fp⟩

/-- Witness for `C1_matrix_update_follows_spec` at concrete inputs. -/
theorem C1_matrix_update_follows_spec_witness :
    (0 < 3 ∧ (⟨7, 2⟩ : Bucket).count < U32MOD) ∧
    ((((sampleRow (9/10) (fun _ => 0) 99 3 ⟨7, 2⟩ 0).1,
        (sampleRow (9/10) (fun _ => 0) 99 3 ⟨7, 2⟩ 0).2.1) =
      sampleRowSpec (9/10) (fun _ => 0) 99 3 ⟨7, 2⟩ 0) ∧
    (∀ (rows i : Nat) (bs : List Bucket) (ri' : Nat),
      sampleLoop (fun _ _ => 0) (fun _ => 0) (9/10) "x" 99 3 5 rows i bs 0 ri' =
        (rowResults (fun _ _ => 0) (fun _ => 0) (9/10) "x" 99 3 5 rows i bs
          ri').map (fun x => (x.1, x.2.1.foldl max 0, x.2.2))) ∧
    (∀ (ds : List ℚ) (b' : Bucket),
      (rowDecaySpec (9/10) 99 ds b').2 = 0 ∨
        ((rowDecaySpec (9/10) 99 ds b').1.fingerprint = 99 ∧
          (rowDecaySpec (9/10) 99 ds b').1.count =
            (rowDecaySpec (9/10) 99 ds b').2))) :=
  ⟨⟨by decide, by decide⟩,
    C1_matrix_update_follows_spec (9/10) (fun _ _ => 0) (fun _ => 0) "x" 99 3 5
      ⟨7, 2⟩ 0 (by decide) (by decide)⟩

/-! ## The heap phase of `Sample` -/

theorem heapFind_lt_length (h : List FlowCount) (flow : String) :
    ∀ i, heapFind h flow = some i → i < h.length := by
  induction h with
  | nil =>
    intro i hi
    simp [heapFind] at hi
  | cons e t ih =>
    intro i hi
    rw [heapFind.eq_2] at hi
    by_cases he : e.Flow = flow
    · rw [if_pos he] at hi
      injection hi with hi
      subst hi
      simp
    · rw [if_neg he] at hi
      cases hf : heapFind t flow with
      | none =>
        rw [hf] at hi
        simp at hi
      | some j =>
        rw [hf] at hi
        simp only [Option.map_some'] at hi
        injection hi with hi
        subst hi
        have := ih j hf
        simp
        omega

/-- **C2**: after the matrix phase produced `maxCount`, `Sample` compares it
with the heap root's count — which, the heap invariant holding, is the heap's
minimum: strictly below the minimum the call returns `false` and leaves the
heap exactly as it was; otherwise the flow's own slot (when `Find` locates
one) has its count set to `maxCount`, or else the root is overwritten with
`(flow, maxCount)`, the heap property is restored with `Fix` from that
position — provably yielding a valid min-heap of unchanged length — and the
call returns `true`. -/
theorem C2_heap_admission (hash : HashFn) (rand : RandFn) (hk : HeavyKeeper)
    (flow : String) (incr ri : Nat) (h0 : FlowCount) (t : List FlowCount)
    (bs : List Bucket) (maxCount ri' : Nat)
    (hheap : hk.heap = h0 :: t)
    (hmh : IsMinHeap hk.heap)
    (hloop : sampleLoop hash rand hk.decay flow (fingerprint hash flow) incr
      hk.width hk.depth 0 hk.buckets 0 ri = some (bs, maxCount, ri')) :
    (∀ e ∈ hk.heap, h0.Count ≤ e.Count) ∧
    (maxCount < h0.Count →
      Sample hash rand hk flow incr ri =
        some ({ hk with buckets := bs }, false, ri')) ∧
    (h0.Count ≤ maxCount → ∀ i, heapFind hk.heap flow = some i →
      Sample hash rand hk flow incr ri =
        some ({ hk with
                  buckets := bs
                  heap := heapFix (hk.heap.set i
                    ⟨(hk.heap.getD i default).Flow, maxCount⟩) i },
              true, ri') ∧
      IsMinHeap (heapFix (hk.heap.set i
        ⟨(hk.heap.getD i default).Flow, maxCount⟩) i) ∧
      (heapFix (hk.heap.set i
        ⟨(hk.heap.getD i default).Flow, maxCount⟩) i).length = hk.heap.length) ∧
    (h0.Count ≤ maxCount → heapFind hk.heap flow = none →
      Sample hash rand hk flow incr ri =
        some ({ hk with
                  buckets := bs
                  heap := heapFix (hk.heap.set 0 ⟨flow, maxCount⟩) 0 },
              true, ri') ∧
      IsMinHeap (heapFix (hk.heap.set 0 ⟨flow, maxCount⟩) 0) ∧
      (heapFix (hk.heap.set 0 ⟨flow, maxCount⟩) 0).length = hk.heap.length) := by
  have hroot : ∀ e ∈ hk.heap, h0.Count ≤ e.Count := by
    intro e he
    obtain ⟨j, hj, hEl⟩ := List.mem_iff_getElem.mp he
    have h1 := isMinHeap_root_min hk.heap hmh j hj
    unfold hkey at h1
    rw [List.getD_eq_getElem _ _ hj, hEl, hheap] at h1
    simpa using h1
  have hsamp : Sample hash rand hk flow incr ri =
      (if h0.Count ≤ maxCount then
        match heapFind hk.heap flow with
        | some i =>
          some ({ hk with
                    buckets := bs
                    heap := heapFix (hk.heap.set i
                      ⟨(hk.heap.getD i default).Flow, maxCount⟩) i },
                true, ri')
        | none =>
          some ({ hk with
                    buckets := bs
                    heap := heapFix (hk.heap.set 0 ⟨flow, maxCount⟩) 0 },
                true, ri')
      else some ({ hk with buckets := bs }, false, ri')) := by
    unfold Sample
    rw [hheap]
    simp only [List.head?_cons]
    rw [hloop]
  refine ⟨hroot, ?_, ?_, ?_⟩
  · intro hlt
    rw [hsamp, if_neg (by omega)]
  · intro hge i hfind
    have hilt : i < hk.heap.length := heapFind_lt_length hk.heap flow i hfind
    have hfc := heapFix_correct (hk.heap.set i
        ⟨(hk.heap.getD i default).Flow, maxCount⟩) i
      (by rw [List.length_set]; exact hilt)
      (downInv_set hk.heap hmh i _)
    refine ⟨?_, hfc.1, by rw [hfc.2, List.length_set]⟩
    rw [hsamp, if_pos hge, hfind]
  · intro hge hfind
    have h0lt : 0 < hk.heap.length := by
      rw [hheap]
      simp
    have hfc := heapFix_correct (hk.heap.set 0 ⟨flow, maxCount⟩) 0
      (by rw [List.length_set]; exact h0lt)
      (downInv_set hk.heap hmh 0 _)
    refine ⟨?_, hfc.1, by rw [hfc.2, List.length_set]⟩
    rw [hsamp, if_pos hge, hfind]

/-- Witness for `C2_heap_admission` at a concrete sketch, flow and draw
stream. -/
theorem C2_heap_admission_witness :
    ((⟨9/10, 1, 1, [⟨0, 0⟩], [⟨"a", 1⟩, ⟨"b", 2⟩]⟩ : HeavyKeeper).heap =
        ⟨"a", 1⟩ :: [⟨"b", 2⟩] ∧
      IsMinHeap (⟨9/10, 1, 1, [⟨0, 0⟩], [⟨"a", 1⟩, ⟨"b", 2⟩]⟩ :
        HeavyKeeper).heap ∧
      sampleLoop (fun _ _ => 0) (fun _ => 0) (9/10) "x"
        (fingerprint (fun _ _ => 0) "x") 3 1 1 0 [⟨0, 0⟩] 0 0 =
        some ([⟨0, 3⟩], 3, 0)) ∧
    ((∀ e ∈ [(⟨"a", 1⟩ : FlowCount), ⟨"b", 2⟩], 1 ≤ e.Count) ∧
      ((3 : Nat) < 1 →
        Sample (fun _ _ => 0) (fun _ => 0)
            ⟨9/10, 1, 1, [⟨0, 0⟩], [⟨"a", 1⟩, ⟨"b", 2⟩]⟩ "x" 3 0 =
          some (⟨9/10, 1, 1, [⟨0, 3⟩], [⟨"a", 1⟩, ⟨"b", 2⟩]⟩, false, 0)) ∧
      ((1 : Nat) ≤ 3 → ∀ i,
        heapFind [(⟨"a", 1⟩ : FlowCount), ⟨"b", 2⟩] "x" = some i →
        Sample (fun _ _ => 0) (fun _ => 0)
            ⟨9/10, 1, 1, [⟨0, 0⟩], [⟨"a", 1⟩, ⟨"b", 2⟩]⟩ "x" 3 0 =
          some (⟨9/10, 1, 1, [⟨0, 3⟩],
              heapFix ([(⟨"a", 1⟩ : FlowCount), ⟨"b", 2⟩].set i
                ⟨([(⟨"a", 1⟩ : FlowCount), ⟨"b", 2⟩].getD i default).Flow, 3⟩)
                i⟩,
            true, 0) ∧
        IsMinHeap (heapFix ([(⟨"a", 1⟩ : FlowCount), ⟨"b", 2⟩].set i
          ⟨([(⟨"a", 1⟩ : FlowCount), ⟨"b", 2⟩].getD i default).Flow, 3⟩) i) ∧
        (heapFix ([(⟨"a", 1⟩ : FlowCount), ⟨"b", 2⟩].set i
          ⟨([(⟨"a", 1⟩ : FlowCount), ⟨"b", 2⟩].getD i default).Flow, 3⟩)
          i).length = 2) ∧
      ((1 : Nat) ≤ 3 →
        heapFind [(⟨"a", 1⟩ : FlowCount), ⟨"b", 2⟩] "x" = none →
        Sample (fun _ _ => 0) (fun _ => 0)
            ⟨9/10, 1, 1, [⟨0, 0⟩], [⟨"a", 1⟩, ⟨"b", 2⟩]⟩ "x" 3 0 =
          some (⟨9/10, 1, 1, [⟨0, 3⟩],
              heapFix ([(⟨"a", 1⟩ : FlowCount), ⟨"b", 2⟩].set 0 ⟨"x", 3⟩) 0⟩,
            true, 0) ∧
        IsMinHeap (heapFix ([(⟨"a", 1⟩ : FlowCount), ⟨"b", 2⟩].set 0
          ⟨"x", 3⟩) 0) ∧
        (heapFix ([(⟨"a", 1⟩ : FlowCount), ⟨"b", 2⟩].set 0 ⟨"x", 3⟩)
          0).length = 2)) :=
  ⟨⟨rfl, by decide, rfl⟩,
    C2_heap_admission (fun _ _ => 0) (fun _ => 0)
      ⟨9/10, 1, 1, [⟨0, 0⟩], [⟨"a", 1⟩, ⟨"b", 2⟩]⟩ "x" 3 0 ⟨"a", 1⟩
      [⟨"b", 2⟩] [⟨0, 3⟩] 3 0 rfl (by decide) rfl⟩

/-! ## Construction and totality -/

/-- Every row access of the matrix loop is in bounds, so the loop cannot
fail. -/
theorem sampleLoop_isSome (hash : HashFn) (rand : RandFn) (decay : ℚ)
    (flow : String) (fp incr width : Nat) (hw : 0 < width) :
    ∀ (rows i : Nat) (bs : List Bucket) (m ri : Nat),
    (i + rows) * width ≤ bs.length →
    (sampleLoop hash rand decay flow fp incr width rows i bs m ri).isSome
      = true := by
  intro rows
  induction rows with
  | zero =>
    intro i bs m ri _
    rfl
  | succ rows ih =>
    intro i bs m ri hlen
    rw [sampleLoop.eq_2]
    have hs : slot hash flow i width < width := by
      unfold slot
      exact Nat.mod_lt _ hw
    have hj : slot hash flow i width + i * width < bs.length := by
      have h1 : (i + 1) * width ≤ (i + (rows+1)) * width :=
        Nat.mul_le_mul_right _ (by omega)
      have h2 : (i + 1) * width = i * width + width := by ring
      omega
    rw [List.getElem?_eq_getElem hj]
    dsimp only
    refine ih (i+1) _ _ _ ?_
    rw [List.length_set]
    calc ((i+1) + rows) * width = (i + (rows+1)) * width := by ring
      _ ≤ bs.length := hlen

theorem newWidth_pos (k : Nat) : 0 < newWidth k := by
  unfold newWidth
  dsimp only
  split <;> omega

/-- **C7**: `New(K, decay)` fails exactly when `K < 1` or `decay` lies
outside `(0, 1]`; a successful construction is well-formed; and on any
well-formed sketch `Sample` — the one operation whose Go code could panic —
always succeeds (`Top`, `Count`, `DecayAll` and `Reset` are total functions
of the state by construction). -/
theorem C7_construction_and_totality :
    (∀ (k : Int) (d : ℚ), New k d = none ↔ (k < 1 ∨ d ≤ 0 ∨ 1 < d)) ∧
    (∀ (k : Int) (d : ℚ) (hk : HeavyKeeper), New k d = some hk → WF hk) ∧
    (∀ (hash : HashFn) (rand : RandFn) (hk : HeavyKeeper) (flow : String)
      (incr ri : Nat), WF hk →
      (Sample hash rand hk flow incr ri).isSome = true) := by
  refine ⟨?_, ?_, ?_⟩
  · intro k d
    unfold New
    by_cases h1 : k < 1
    · rw [if_pos h1]
      exact iff_of_true rfl (Or.inl h1)
    · rw [if_neg h1]
      by_cases h2 : d ≤ 0 ∨ 1 < d
      · rw [if_pos h2]
        exact iff_of_true rfl (Or.inr h2)
      · rw [if_neg h2]
        push_neg at h2
        refine iff_of_false (by simp) ?_
        rintro (hc | hc | hc)
        · exact h1 hc
        · linarith [h2.1]
        · linarith [h2.2]
  · intro k d hk hnew
    unfold New at hnew
    split_ifs at hnew with h1 h2
    injection hnew with hnew
    subst hnew
    refine ⟨?_, by simp, newWidth_pos _⟩
    intro hcon
    have hlen := congrArg List.length hcon
    simp only [List.length_replicate, List.length_nil] at hlen
    omega
  · intro hash rand hk flow incr ri hwf
    obtain ⟨hne, hlen, hw⟩ := hwf
    obtain ⟨h0, t, hht⟩ := List.exists_cons_of_ne_nil hne
    unfold Sample
    rw [hht]
    simp only [List.head?_cons]
    have hsl := sampleLoop_isSome hash rand hk.decay flow
      (fingerprint hash flow) incr hk.width hw hk.depth 0 hk.buckets 0 ri
      (by rw [Nat.zero_add]; exact le_of_eq hlen.symm)
    obtain ⟨⟨bs, m, ri'⟩, heq⟩ := Option.isSome_iff_exists.mp hsl
    rw [heq]
    dsimp only
    split
    · cases heapFind (h0 :: t) flow <;> rfl
    · rfl

/-- Witness for `C7_construction_and_totality` at a concrete well-formed
sketch. -/
theorem C7_construction_and_totality_witness :
    WF ⟨9/10, 1, 1, [⟨0, 0⟩], [⟨"a", 1⟩]⟩ ∧
    (Sample (fun _ _ => 0) (fun _ => 0) ⟨9/10, 1, 1, [⟨0, 0⟩], [⟨"a", 1⟩]⟩
      "x" 1 0).isSome = true :=
  ⟨by decide,
    C7_construction_and_totality.2.2 (fun _ _ => 0) (fun _ => 0)
      ⟨9/10, 1, 1, [⟨0, 0⟩], [⟨"a", 1⟩]⟩ "x" 1 0 (by decide)⟩

/-! ## The sizing policy: truncation, not rounding -/

/-- **C8 counterexample**: at `K = 256` the code computes
`depth = int(ln 256) = 5` (truncation), while the claim's
`max(3, round(ln 256))` is `6` — `ln 256 = 8·ln 2 ≈ 5.545` rounds up. -/
theorem C8_sizing_round_cex :
    newDepth 256 = 5 ∧ max 3 (round (Real.log ((256 : Nat) : ℝ))) = 6 := by
  have hlog : Real.log ((256 : Nat) : ℝ) = 8 * Real.log 2 := by
    have h1 : ((256 : Nat) : ℝ) = (2 : ℝ) ^ (8 : Nat) := by norm_num
    rw [h1, Real.log_pow]
    norm_num
  have hgt := Real.log_two_gt_d9
  have hlt := Real.log_two_lt_d9
  constructor
  · unfold newDepth
    have hfl : ⌊Real.log ((256 : Nat) : ℝ)⌋ = 5 := by
      rw [hlog, Int.floor_eq_iff]
      constructor
      · push_cast
        linarith
      · push_cast
        linarith
    rw [hfl]
    decide
  · have hr : round (Real.log ((256 : Nat) : ℝ)) = 6 := by
      rw [round_eq, hlog, Int.floor_eq_iff]
      constructor
      · push_cast
        linarith
      · push_cast
        linarith
    rw [hr]
    norm_num

/-- **C8 (amended)**: the constructed dimensions are
`width = max(256, trunc(K·ln K))` and `depth = max(3, trunc(ln K))`, where
`trunc` is Go's `int(·)` truncation toward zero (the floor, the arguments
being non-negative) — rounding to nearest would disagree, e.g. at
`K = 256`. -/
theorem C8_sizing_truncation (k : Nat) :
    newWidth k = max 256 (⌊(k : ℝ) * Real.log k⌋).toNat ∧
    newDepth k = max 3 (⌊Real.log k⌋).toNat ∧
    (∀ (d : ℚ) (hk : HeavyKeeper), New (k : Int) d = some hk →
      hk.width = newWidth k ∧ hk.depth = newDepth k) := by
  refine ⟨?_, ?_, ?_⟩
  · unfold newWidth
    dsimp only
    split <;> omega
  · unfold newDepth
    dsimp only
    split <;> omega
  · intro d hk hnew
    unfold New at hnew
    split_ifs at hnew
    injection hnew with hnew
    subst hnew
    constructor <;> simp

/-- Evaluation of `New` at `K = 1`: `ln 1 = 0`, so the minimums apply. -/
theorem new_one_eval : New 1 (9/10) =
    some ⟨9/10, 3, 256, List.replicate 768 ⟨0, 0⟩, List.replicate 1 ⟨"", 0⟩⟩ := by
  have hw : newWidth (1 : Int).toNat = 256 := by
    unfold newWidth
    norm_num [Real.log_one]
  have hd : newDepth (1 : Int).toNat = 3 := by
    unfold newDepth
    norm_num [Real.log_one]
  unfold New
  rw [if_neg (by norm_num), if_neg (by push_neg; constructor <;> norm_num),
    hw, hd]
  norm_num

/-- Witness for `C8_sizing_truncation` at `K = 1`. -/
theorem C8_sizing_truncation_witness :
    New ((1 : Nat) : Int) (9/10) =
      some ⟨9/10, 3, 256, List.replicate 768 ⟨0, 0⟩, List.replicate 1 ⟨"", 0⟩⟩ ∧
    ((⟨9/10, 3, 256, List.replicate 768 ⟨0, 0⟩, List.replicate 1 ⟨"", 0⟩⟩ :
        HeavyKeeper).width = newWidth 1 ∧
      (⟨9/10, 3, 256, List.replicate 768 ⟨0, 0⟩, List.replicate 1 ⟨"", 0⟩⟩ :
        HeavyKeeper).depth = newDepth 1) := by
  have h1 : New ((1 : Nat) : Int) (9/10) =
      some ⟨9/10, 3, 256, List.replicate 768 ⟨0, 0⟩,
        List.replicate 1 ⟨"", 0⟩⟩ := by
    rw [Nat.cast_one]
    exact new_one_eval
  exact ⟨h1, (C8_sizing_truncation 1).2.2 (9/10) _ h1⟩

/-! ## Weight zero is not a no-op in `Sample` -/

theorem heapFix_singleton (e : FlowCount) : heapFix [e] 0 = [e] := by
  have hd : heapDown [e] 0 = ([e], 0) := by
    rw [heapDown.eq_def]
    norm_num
  unfold heapFix
  rw [hd]
  norm_num
  rw [heapUp.eq_def]
  norm_num

/-- **C3** (divergence evidence): on a fresh one-slot sketch, `Sample` with
weight `0` is *not* a no-op — the Go `Sample` has no `incr == 0` guard (the
`Add` variant does): it stamps the flow's fingerprint into the empty cells
and, since `maxCount = 0 ≥ heapMin = 0`, admits the flow into the tracker,
flipping `Count("x")` from `(0, false)` to `(0, true)` and returning
`true`. -/
theorem C3_zero_weight_mutates :
    Sample (fun _ s => s) (fun _ => 0)
        ⟨9/10, 1, 1, [⟨0, 0⟩], [⟨"", 0⟩]⟩ "x" 0 0 =
      some (⟨9/10, 1, 1, [⟨4294967295, 0⟩], [⟨"x", 0⟩]⟩, true, 0) ∧
    Count ⟨9/10, 1, 1, [⟨0, 0⟩], [⟨"", 0⟩]⟩ "x" = (0, false) ∧
    Count ⟨9/10, 1, 1, [⟨4294967295, 0⟩], [⟨"x", 0⟩]⟩ "x" = (0, true) := by
  refine ⟨?_, rfl, rfl⟩
  have h1 : Sample (fun _ s => s) (fun _ => 0)
      ⟨9/10, 1, 1, [⟨0, 0⟩], [⟨"", 0⟩]⟩ "x" 0 0 =
      some (⟨9/10, 1, 1, [⟨4294967295, 0⟩],
        heapFix ([(⟨"", 0⟩ : FlowCount)].set 0 ⟨"x", 0⟩) 0⟩, true, 0) := rfl
  rw [h1]
  have h2 : [(⟨"", 0⟩ : FlowCount)].set 0 ⟨"x", 0⟩ = [⟨"x", 0⟩] := rfl
  rw [h2, heapFix_singleton]

end Topk
